import Mathlib

/-!
Verification of the email extraction and validation pipeline (and the two
auxiliary scripts) of the `Task3_Automation` repository.

The Python scripts are shallowly embedded: regular-expression calls are
modelled by a small backtracking engine whose priority order (greedy
quantifiers, leftmost scan) matches the semantics of Python's `re` module
for the patterns occurring in the source; file-system effects are modelled
by explicit state passing over association lists.
-/

set_option maxRecDepth 4000

namespace Automation

/-! ## Character classes of the source regular expressions

`isWordChar` models `\w` (and hence `\b`) restricted to ASCII, which is the
alphabet of every character class in the source patterns. -/

/-- Model of `\w`: letters, digits, and underscore. -/
def isWordChar (c : Char) : Bool :=
  c.isAlphanum || c == '_'

/-- Character class `[A-Za-z0-9._%+-]` of the local part (identical in the
discovery pattern and in the strict pattern `[a-zA-Z0-9._%+-]`). -/
def isLocalChar (c : Char) : Bool :=
  c.isAlphanum || c == '.' || c == '_' || c == '%' || c == '+' || c == '-'

/-- Character class `[A-Za-z0-9.-]` of the domain (identical in the
discovery pattern and in the strict pattern `[a-zA-Z0-9.-]`). -/
def isDomainChar (c : Char) : Bool :=
  c.isAlphanum || c == '.' || c == '-'

/-- Character class `[A-Z|a-z]` of the top-level label in the discovery
pattern `email_pattern`: the `|` between the two ranges is a literal pipe
character inside a character class, so the class is letters plus `'|'`. -/
def isTldChar (c : Char) : Bool :=
  c.isAlpha || c == '|'

/-- Character class `[a-zA-Z]` of the top-level label in the strict
validation pattern `strict_pattern`: letters only. -/
def isStrictTldChar (c : Char) : Bool :=
  c.isAlpha

/-- Character at position `i` is a word character (`false` out of range). -/
def wordAt (cs : List Char) (i : Nat) : Bool :=
  match cs[i]? with
  | some c => isWordChar c
  | none => false

/-- Model of `\b` at position `i`: a transition between a word character and
a non-word character (positions before the start and after the end count as
non-word). -/
def boundaryB (cs : List Char) (i : Nat) : Bool :=
  (if i = 0 then false else wordAt cs (i - 1)) != wordAt cs i

/-! ## A small regex engine

The engine covers exactly the constructs used by the two source patterns:
literal characters, greedy `[class]+`, greedy `[class]{2,}`, `\b`, `$`
(with Python's default behavior of also matching just before a final
newline), and concatenation.  `reRun` returns the list of all end positions
of a match starting at `i`, in Python's backtracking priority order
(greedy quantifiers try longer repetitions first); the head of the list is
the end position `re` reports. -/

/-- Syntax of the fragment of regular expressions used by the source. -/
inductive RE where
  | ch : Char → RE
  | plusCls : (Char → Bool) → RE
  | rep2Cls : (Char → Bool) → RE
  | wordB : RE
  | dollar : RE
  | cat : RE → RE → RE

/-- Length of the maximal run of characters satisfying `q` in `l`. -/
def runLenL (q : Char → Bool) : List Char → Nat
  | [] => 0
  | c :: rest => if q c then runLenL q rest + 1 else 0

/-- Length of the maximal run of characters satisfying `q` starting at
position `i` of `cs`. -/
def runLen (q : Char → Bool) (cs : List Char) (i : Nat) : Nat :=
  runLenL q (cs.drop i)

/-- The list `[a + k, a + k - 1, ..., a + 1]`: candidate end positions of a
greedy repetition starting at `a`, longest first. -/
def descFrom (a : Nat) : Nat → List Nat
  | 0 => []
  | k + 1 => (a + (k + 1)) :: descFrom a k

/-- All end positions of a match of `r` starting at position `i` of `cs`,
in backtracking priority order (first element = what Python's `re` picks). -/
def reRun (cs : List Char) : RE → Nat → List Nat
  | .ch c, i => if cs[i]? = some c then [i + 1] else []
  | .plusCls q, i => descFrom i (runLen q cs i)
  | .rep2Cls q, i =>
      if 2 ≤ runLen q cs i then descFrom (i + 1) (runLen q cs i - 1) else []
  | .wordB, i => if boundaryB cs i then [i] else []
  | .dollar, i =>
      if i = cs.length ∨ (i + 1 = cs.length ∧ cs[i]? = some '\n') then [i] else []
  | .cat a b, i => (reRun cs a i).flatMap (reRun cs b)

/-- Common core `[local]+@[domain]+\.[tld]{2,}` of the two source patterns,
parameterised by the top-level-label class. -/
def emailCore (t : Char → Bool) : RE :=
  .cat (.plusCls isLocalChar)
    (.cat (.ch '@')
      (.cat (.plusCls isDomainChar)
        (.cat (.ch '.') (.rep2Cls t))))

/-- The discovery pattern of `extract_emails_from_text`
(`r'\b[A-Za-z0-9._%+-]+@[A-Za-z0-9.-]+\.[A-Z|a-z]{2,}\b'`, line 40). -/
def email_pattern : RE :=
  .cat .wordB (.cat (emailCore isTldChar) .wordB)

/-- The strict pattern of `validate_emails`
(`r'^[a-zA-Z0-9._%+-]+@[a-zA-Z0-9.-]+\.[a-zA-Z]{2,}$'`, line 102); the
leading `^` is implicit because `re.match` anchors at position 0. -/
def strict_pattern : RE :=
  .cat (emailCore isStrictTldChar) .dollar

/-- Model of `re.match(strict_pattern, s)` being a match. -/
def strictMatchB (s : String) : Bool :=
  !(reRun s.data strict_pattern 0).isEmpty

/-- Model of the entire string matching the discovery pattern
(`re.fullmatch(email_pattern, s)` being a match). -/
def discFullB (s : String) : Bool :=
  (reRun s.data email_pattern 0).contains s.data.length

/-! ## The scanner underlying `re.findall` -/

/-- Generic left-to-right scanner: `step i` reports the end of the match
chosen at position `i` (if any); on a match the scan resumes at its end, on
a failure it advances one position, exactly as `re.findall` does. -/
def scanWith (cs : List Char) (step : Nat → Option Nat) : Nat → Nat → List (List Char)
  | 0, _ => []
  | fuel + 1, i =>
      if cs.length < i then []
      else
        match step i with
        | some e => ((cs.drop i).take (e - i)) :: scanWith cs step fuel (max e (i + 1))
        | none => scanWith cs step fuel (i + 1)

/-- Model of `re.findall(email_pattern, content)` (line 51): the raw
discovery sequence, duplicates included. -/
def findallEmails (content : String) : List String :=
  (scanWith content.data (fun i => (reRun content.data email_pattern i).head?)
    (content.data.length + 2) 0).map (fun l => String.mk l)

/-! ## Deduplication and validation -/

/-- ASCII lowercasing of one character (model of `str.lower()` on the ASCII
strings produced by the discovery pattern). -/
def lowerChar (c : Char) : Char :=
  if 'A' ≤ c ∧ c ≤ 'Z' then Char.ofNat (c.toNat + 32) else c

/-- ASCII lowercasing of a string. -/
def lowerStr (s : String) : String :=
  String.mk (s.data.map lowerChar)

/-- Deduplication loop of `extract_emails_from_text` (lines 53-58): keep an
email when its lowercasing has not been seen yet; `seen` accumulates the
lowercased forms already kept. -/
def dedupeAux : List String → List String → List String
  | [], _ => []
  | e :: rest, seen =>
      if lowerStr e ∈ seen then dedupeAux rest seen
      else e :: dedupeAux rest (lowerStr e :: seen)

/-- Case-insensitive deduplication preserving first-seen order and casing. -/
def dedupe (l : List String) : List String :=
  dedupeAux l []

/-- Result dictionary of `validate_emails`. -/
structure ValidationResult where
  valid : List String
  invalid : List String
  total_valid : Nat
  total_invalid : Nat
  deriving DecidableEq, Repr

/-- Partition loop of `validate_emails` (lines 107-111): an email goes to
`valid` when `re.match(strict_pattern, email)` succeeds, otherwise to
`invalid`, preserving input order in both lists. -/
def validateGo : List String → List String × List String
  | [] => ([], [])
  | e :: rest =>
      let r := validateGo rest
      if strictMatchB e then (e :: r.1, r.2) else (r.1, e :: r.2)

/-- Model of `validate_emails` (lines 91-118). -/
def validate_emails (email_list : List String) : ValidationResult :=
  let r := validateGo email_list
  ⟨r.1, r.2, r.1.length, r.2.length⟩

/-! ## File-system model and the extraction pipeline

Files are an association list from path to content; the first binding for a
path wins, and writing prepends a binding.  Reading an existing file always
succeeds in the model (the source opens with `errors='ignore'`, and the
`except` clause of lines 85-87 is unreachable for readable files). -/

/-- File-system state for the email script: an association list of files. -/
structure FS where
  files : List (String × String)
  deriving DecidableEq, Repr

/-- Content of the file at `p`, if it exists. -/
def lookupFile (fs : FS) (p : String) : Option String :=
  match fs.files.find? (fun f => f.1 == p) with
  | some f => some f.2
  | none => none

/-- Write (create or overwrite) the file at `p`. -/
def writeFile (fs : FS) (p : String) (content : String) : FS :=
  ⟨(p, content) :: fs.files⟩

/-- Decimal digits of a natural number, most significant first, with
explicit fuel so that the definition reduces in the kernel (model of
Python's `str`/f-string formatting of an `int`; fuel `≥ n` suffices). -/
def natDecimalGo : Nat → Nat → List Char → List Char
  | 0, n, acc => Char.ofNat (n % 10 + 48) :: acc
  | fuel + 1, n, acc =>
      if n < 10 then Char.ofNat (n + 48) :: acc
      else natDecimalGo fuel (n / 10) (Char.ofNat (n % 10 + 48) :: acc)

/-- Decimal representation of a natural number as characters. -/
def natDecimal (n : Nat) : List Char :=
  natDecimalGo n n []

/-- Directory part of a path, as `pathlib`'s `.parent` renders it: the text
before the last `/`, or `"."` when the path has no slash. -/
def parentDir (p : String) : String :=
  if p.data.contains '/' then
    String.mk ((p.data.reverse.dropWhile (fun c => c != '/')).drop 1).reverse
  else "."

/-- Join a directory and a file name as `pathlib`'s `/` renders it
(`Path(".") / f` prints as just `f`). -/
def joinPath (d f : String) : String :=
  if d = "." then f else d ++ "/" ++ f

/-- Output path of `extract_emails_from_text` (lines 32-36): the argument
when given, else `extracted_emails_<timestamp>.txt` next to the input;
`tsName` models `datetime.now().strftime("%Y%m%d_%H%M%S")`. -/
def outPathOf (input : String) (output? : Option String) (tsName : String) : String :=
  match output? with
  | some o => o
  | none => joinPath (parentDir input) ("extracted_emails_" ++ tsName ++ ".txt")

/-- Enumerated listing lines `"<i>. <email>\n"` of the extraction report
(lines 73-74), starting at index `i`. -/
def enumLinesChars (i : Nat) : List String → List Char
  | [] => []
  | e :: rest => natDecimal i ++ '.' :: ' ' :: e.data ++ '\n' :: enumLinesChars (i + 1) rest

/-- Full content of the extraction report (lines 67-74): three header
lines, a separator line of fifty dashes, a blank line, then the enumerated
emails; `tsDate` models `datetime.now().strftime('%Y-%m-%d %H:%M:%S')`. -/
def reportChars (input tsDate : String) (emails : List String) : List Char :=
  "Email addresses extracted from: ".data ++ input.data ++ '\n' ::
  ("Extraction date: ".data ++ tsDate.data ++ '\n' ::
  ("Total unique emails found: ".data ++ natDecimal emails.length ++ '\n' ::
  (List.replicate 50 '-' ++ '\n' :: '\n' ::
  enumLinesChars 1 emails)))

/-- Model of `extract_emails_from_text` (lines 13-89).  The two timestamp
strings are passed explicitly in place of `datetime.now()`; the function
returns the pair returned by the source together with the resulting
file-system state.  Directory creation (line 64) is invisible in this
file-only model. -/
def extract_emails_from_text (fs : FS) (input : String) (output? : Option String)
    (tsName tsDate : String) : (List String × Option String) × FS :=
  match lookupFile fs input with
  | none => (([], none), fs)
  | some content =>
      let outPath := outPathOf input output? tsName
      let emails := dedupe (findallEmails content)
      if emails.isEmpty then ((emails, some outPath), fs)
      else ((emails, some outPath), writeFile fs outPath (String.mk (reportChars input tsDate emails)))

/-! ## Re-parsing the extraction report

The report format itself has no parser in the repository; the following
reader of the enumerated lines is modelled from the spec's round-trip
property ("the written extraction report, when re-parsed for its enumerated
lines, reproduces UniqueEmailList"). -/

/-- Split a character list at every occurrence of `c` (the separators are
consumed); always returns at least one (possibly empty) piece. -/
def splitCh (c : Char) : List Char → List (List Char)
  | [] => [[]]
  | x :: xs =>
      match splitCh c xs with
      | [] => [[x]]
      | h :: t => if x = c then [] :: h :: t else (x :: h) :: t

/-- Modelled from the spec: read one report line; an enumerated line is one
or more decimal digits, then `". "`, then the email. -/
def parseEnumLine (l : List Char) : Option String :=
  match l.takeWhile Char.isDigit, l.dropWhile Char.isDigit with
  | _ :: _, '.' :: ' ' :: tail => some (String.mk tail)
  | _, _ => none

/-- Modelled from the spec: the emails listed on the enumerated lines of a
report, in order. -/
def parseEnumeratedLines (content : List Char) : List String :=
  (splitCh '\n' content).filterMap parseEnumLine

/-! ## The webpage-title scraper (`scrape_webpage_title.py`)

The single blocking HTTP request of line 42 is modelled by an explicit
`FetchOutcome` argument; the three `requests` exception classes caught on
lines 94-102 and the successful response are its constructors.  Because the
function is total, no exception ever reaches the caller, matching the
source's `try`/`except` structure. -/

/-- Outcome of `requests.get`: one of the three caught transport failures,
or a response with a status code and a body. -/
inductive FetchOutcome where
  | timeout : FetchOutcome
  | connectionError : FetchOutcome
  | requestError : FetchOutcome
  | ok : Nat → String → FetchOutcome
  deriving DecidableEq, Repr

/-- Which branch of `scrape_webpage_title` produced the result; each value
corresponds to one distinct console diagnostic of the source. -/
inductive ScrapeBranch where
  | invalidUrl : ScrapeBranch
  | gotTitle : ScrapeBranch
  | noTitle : ScrapeBranch
  | badStatus : ScrapeBranch
  | timedOut : ScrapeBranch
  | connFailed : ScrapeBranch
  | reqFailed : ScrapeBranch
  deriving DecidableEq, Repr

/-- Result of one call of `scrape_webpage_title`: the returned triple, plus
the observable effects (whether the request was performed and which files
were written) and the branch taken. -/
structure ScrapeResult where
  title : Option String
  outPath : Option String
  status : Option Nat
  didRequest : Bool
  written : List (String × String)
  branch : ScrapeBranch
  deriving DecidableEq, Repr

/-- Valid scheme characters after the first (letters, digits, `+`, `-`, `.`),
as `urllib.parse` accepts them. -/
def isSchemeChar (c : Char) : Bool :=
  c.isAlphanum || c == '+' || c == '-' || c == '.'

/-- Scheme of a URL per `urlparse`: the text before the first `:` when it is
a nonempty letter-led run of scheme characters, else empty. -/
def urlScheme (url : String) : String :=
  let before := url.data.takeWhile (fun c => c != ':')
  let wellFormed : Bool :=
    Nat.blt before.length url.data.length &&
    (match before with
     | c :: rest => c.isAlpha && rest.all isSchemeChar
     | [] => false)
  if wellFormed then String.mk before else ""

/-- Remainder of the URL after the scheme colon (the whole URL when no
scheme is recognised). -/
def urlRest (url : String) : List Char :=
  if urlScheme url = "" then url.data
  else (url.data.dropWhile (fun c => c != ':')).drop 1

/-- Network location per `urlparse`: present only after a leading `//`,
running until the next `/`, `?` or `#`. -/
def urlNetloc (url : String) : String :=
  match urlRest url with
  | '/' :: '/' :: rest => String.mk (rest.takeWhile (fun c => c != '/' && c != '?' && c != '#'))
  | _ => ""

/-- URL validation of lines 29-32: both a scheme and a network location. -/
def validUrlB (url : String) : Bool :=
  (urlScheme url != "") && (urlNetloc url != "")

/-- Whitespace for `\s` (ASCII part). -/
def isSpaceChar (c : Char) : Bool :=
  c == ' ' || c == '\t' || c == '\n' || c == '\r' || c == '\x0b' || c == '\x0c'

/-- True when the lowercasing of `pat` occurs at the front of `l` (the
case-insensitive literal tests of the title pattern). -/
def lowerStartsWith (l pat : List Char) : Bool :=
  (l.take pat.length).map lowerChar == pat

/-- Lazy body capture of `(.*?)</title>`: characters up to the first
case-insensitive `</title>`, or `none` when the closing tag is missing. -/
def titleBody (fuel : Nat) (l : List Char) : Option (List Char) :=
  match fuel, l with
  | 0, _ => none
  | _ + 1, [] => none
  | fuel + 1, c :: rest =>
      if lowerStartsWith (c :: rest) "</title>".data then some []
      else match titleBody fuel rest with
        | some t => some (c :: t)
        | none => none

/-- Search loop of `re.search(r'<title[^>]*>(.*?)</title>', text, IGNORECASE
| DOTALL)`: at each position, a case-insensitive `<title`, then `[^>]*` and
`>` (everything up to the first `>`), then the lazy body. -/
def titleSearch (fuel : Nat) (l : List Char) : Option (List Char) :=
  match fuel, l with
  | 0, _ => none
  | _ + 1, [] => none
  | fuel + 1, c :: rest =>
      if lowerStartsWith (c :: rest) "<title".data then
        let afterOpen := (c :: rest).drop 6
        let afterAttrs := afterOpen.dropWhile (fun x => x != '>')
        match afterAttrs with
        | '>' :: body =>
            match titleBody body.length body with
            | some t => some t
            | none => titleSearch fuel rest
        | _ => titleSearch fuel rest
      else titleSearch fuel rest

/-- Replace every occurrence of `pat` (nonempty) in a character list. -/
def replaceChars (fuel : Nat) (pat rep l : List Char) : List Char :=
  match fuel, l with
  | 0, l => l
  | _ + 1, [] => []
  | fuel + 1, c :: rest =>
      if pat.isPrefixOf (c :: rest) then rep ++ replaceChars fuel pat rep ((c :: rest).drop pat.length)
      else c :: replaceChars fuel pat rep rest

/-- Collapse of `re.sub(r'\s+', ' ', title)`: every maximal whitespace run
becomes a single space. -/
def collapseWsGo : List Char → Bool → List Char
  | [], _ => []
  | c :: rest, prevWs =>
      if isSpaceChar c then
        if prevWs then collapseWsGo rest true else ' ' :: collapseWsGo rest true
      else c :: collapseWsGo rest false

/-- Python's `str.strip()`: drop leading and trailing whitespace. -/
def stripWs (l : List Char) : List Char :=
  ((l.dropWhile isSpaceChar).reverse.dropWhile isSpaceChar).reverse

/-- Title cleanup of lines 53-57: strip, collapse whitespace, then decode
the four basic HTML entities in the source's order. -/
def cleanTitle (t : List Char) : String :=
  let t1 := collapseWsGo (stripWs t) false
  let t2 := replaceChars t1.length "&amp;".data "&".data t1
  let t3 := replaceChars t2.length "&lt;".data "<".data t2
  let t4 := replaceChars t3.length "&gt;".data ">".data t3
  String.mk (replaceChars t4.length "&quot;".data "\"".data t4)

/-- Title extraction from a response body (lines 48-57). -/
def findTitle (body : String) : Option String :=
  match titleSearch body.data.length body.data with
  | some t => some (cleanTitle t)
  | none => none

/-- Sanitisation `re.sub(r'[^\w\-_\.]', '_', netloc)` of line 64. -/
def sanitizeDomain (s : String) : String :=
  String.mk (s.data.map (fun c => if isWordChar c || c == '-' || c == '_' || c == '.' then c else '_'))

/-- Auto-generated output path of lines 62-65 (the `output` directory next
to the script). -/
def scrapeAutoPath (url ts : String) : String :=
  "output/webpage_title_" ++ sanitizeDomain (urlNetloc url) ++ "_" ++ ts ++ ".txt"

/-- Number of whitespace-separated words, as Python's `str.split()` counts
them; the flag records whether the previous character was part of a word. -/
def pyWordCount : List Char → Bool → Nat
  | [], _ => 0
  | c :: rest, inWord =>
      if isSpaceChar c then pyWordCount rest false
      else if inWord then pyWordCount rest true
      else pyWordCount rest true + 1

/-- Content of the title report file (lines 73-83), with its two embedded
timestamp/length footers. -/
def titleReport (url ts : String) (status : Nat) (title : String) : String :=
  "Webpage Title Extraction Report\n" ++ String.mk (List.replicate 40 '=') ++ "\n\n" ++
  "URL: " ++ url ++ "\n" ++ "Scraped on: " ++ ts ++ "\n" ++
  "HTTP Status: " ++ String.mk (natDecimal status) ++ "\n" ++
  "Domain: " ++ urlNetloc url ++ "\n" ++ String.mk (List.replicate 40 '-') ++ "\n\n" ++
  "Title: " ++ title ++ "\n\n" ++
  "Title length: " ++ String.mk (natDecimal title.data.length) ++ " characters\n" ++
  "Title word count: " ++ String.mk (natDecimal (pyWordCount title.data false)) ++ "\n"

/-- Model of `scrape_webpage_title` (lines 15-105).  The network outcome is
an explicit argument; `ts` models the formatted `datetime.now()`. -/
def scrape_webpage_title (url : String) (output? : Option String) (outcome : FetchOutcome)
    (ts : String) : ScrapeResult :=
  if validUrlB url then
    match outcome with
    | .timeout => ⟨none, none, none, true, [], .timedOut⟩
    | .connectionError => ⟨none, none, none, true, [], .connFailed⟩
    | .requestError => ⟨none, none, none, true, [], .reqFailed⟩
    | .ok status body =>
        if status = 200 then
          match findTitle body with
          | some title =>
              let path := match output? with
                | some o => o
                | none => scrapeAutoPath url ts
              ⟨some title, some path, some status, true, [(path, titleReport url ts status title)], .gotTitle⟩
          | none => ⟨none, none, some status, true, [], .noTitle⟩
        else ⟨none, none, some status, true, [], .badStatus⟩
  else ⟨none, none, none, false, [], .invalidUrl⟩

/-! ## The image mover (`move_jpg_files.py`)

Directories are modelled explicitly because the script creates the
destination directory; files are `(directory, name)` pairs (contents are
irrelevant to a move). -/

/-- File-system state for the mover: existing directories and files. -/
structure MoveFS where
  dirs : List String
  files : List (String × String)
  deriving DecidableEq, Repr

/-- Segments of a path split at `/`. -/
def pathSegs (p : String) : List (List Char) :=
  splitCh '/' p.data

/-- Join segments back with `/`. -/
def joinSegs : List (List Char) → List Char
  | [] => []
  | [s] => s
  | s :: rest => s ++ '/' :: joinSegs rest

/-- All ancestors of a path including the path itself, shortest first:
the directories created by `mkdir(parents=True)`. -/
def parentChain (p : String) : List String :=
  (List.range (pathSegs p).length).map (fun i => String.mk (joinSegs ((pathSegs p).take (i + 1))))

/-- Does a file name match one of the four glob patterns of lines 41-42
(case-sensitive extension check)? -/
def globMatches (pat : String) (name : String) : Bool :=
  pat.data.reverse.isPrefixOf name.data.reverse

/-- Files of directory `src` matching the four patterns, in the source's
concatenation order (`*.jpg`, `*.JPG`, `*.jpeg`, `*.JPEG`). -/
def jpgCandidates (fs : MoveFS) (src : String) : List String :=
  let inSrc := (fs.files.filter (fun f => f.1 == src)).map (fun f => f.2)
  inSrc.filter (globMatches ".jpg") ++ inSrc.filter (globMatches ".JPG") ++
  inSrc.filter (globMatches ".jpeg") ++ inSrc.filter (globMatches ".JPEG")

/-- Per-file move loop of lines 50-68: skip when the destination name
exists, otherwise move the file and count it. -/
def moveLoop (src dst : String) : List String → MoveFS → Nat → Nat × MoveFS
  | [], fs, count => (count, fs)
  | n :: rest, fs, count =>
      if (dst, n) ∈ fs.files then moveLoop src dst rest fs count
      else moveLoop src dst rest ⟨fs.dirs, (dst, n) :: fs.files.filter (fun f => f ≠ (src, n))⟩ (count + 1)

/-- Model of `move_jpg_files` (lines 12-79): returns `(moved_count,
error_list)` and the new file-system state.  In the model no individual
move fails, so the error list is nonempty only for a missing source. -/
def move_jpg_files (fs : MoveFS) (source_folder destination_folder : String) :
    (Nat × List String) × MoveFS :=
  if source_folder ∈ fs.dirs then
    let fs1 : MoveFS := ⟨fs.dirs ++ (parentChain destination_folder).filter (fun d => d ∉ fs.dirs), fs.files⟩
    let names := jpgCandidates fs source_folder
    if names.isEmpty then ((0, []), fs1)
    else
      let r := moveLoop source_folder destination_folder names fs1 0
      ((r.1, []), r.2)
  else ((0, ["Source folder '" ++ source_folder ++ "' does not exist."]), fs)

/-! ## Declarative discovery predicates for the specification

The spec describes discovery as the left-to-right, non-overlapping sequence
of maximal well-formed matches.  `coreShapeB t cs p e` decides whether the
slice `[p, e)` of `cs` has the shape `local-part@domain.tld` with top-level
class `t`; the two validity predicates pair it with the two possible
readings of "word-boundary-delimited", and `specDiscovery` runs the same
left-to-right non-overlapping scan as `re.findall`, but choosing at each
position the longest valid match. -/

/-- Maximum of a list of naturals, `none` when empty. -/
def listMaxN : List Nat → Option Nat
  | [] => none
  | x :: xs =>
      match listMaxN xs with
      | none => some x
      | some m => some (max x m)

/-- All characters of positions `[a, b)` satisfy `q`. -/
def sliceAllB (q : Char → Bool) (cs : List Char) (a b : Nat) : Bool :=
  ((cs.drop a).take (b - a)).all q

/-- The slice `[p, e)` of `cs` is `local-part@domain.tld`: a nonempty run
of local characters, `'@'` at position `a`, a nonempty run of domain
characters, `'.'` at position `d`, and at least two characters of class
`t` filling the rest. -/
def coreShapeB (t : Char → Bool) (cs : List Char) (p e : Nat) : Bool :=
  (List.range (e + 1)).any fun a => (List.range (e + 1)).any fun d =>
    Nat.ble (p + 1) a && Nat.ble (a + 2) d && Nat.ble (d + 3) e && Nat.ble e cs.length &&
    sliceAllB isLocalChar cs p a && (cs[a]? == some '@') &&
    sliceAllB isDomainChar cs (a + 1) d && (cs[d]? == some '.') &&
    sliceAllB t cs (d + 1) e

/-- Candidate end positions contributed by a domain/label split at dot
position `j`: nonempty only when `cs[j] = '.'` and at least two characters
of class `t` follow; then the ends of the greedy `{2,}` repetition, longest
first.  This names the inner part of `reRun` on the email core. -/
def tldBlock (t : Char → Bool) (cs : List Char) (j : Nat) : List Nat :=
  if cs[j]? = some '.' then
    if 2 ≤ runLen t cs (j + 1) then descFrom (j + 2) (runLen t cs (j + 1) - 1) else []
  else []

/-- Candidate end positions of `[domain]+\.[tld]{2,}` starting at `q`, in
backtracking order: longest domain prefix first, then within each dot
position the longest label first. -/
def domBlocks (t : Char → Bool) (cs : List Char) (q : Nat) : List Nat :=
  (descFrom q (runLen isDomainChar cs q)).flatMap (tldBlock t cs)

/-- "Not immediately preceded by a letter, digit, or underscore". -/
def noWordBefore (cs : List Char) (p : Nat) : Bool :=
  if p = 0 then true else !wordAt cs (p - 1)

/-- "Not immediately followed by a letter, digit, or underscore". -/
def noWordAfter (cs : List Char) (e : Nat) : Bool :=
  !wordAt cs e

/-- Validity of a candidate match `[p, e)` as the claim words it: top-level
label of two or more letters, and no word character adjacent on either
side. -/
def claimedValidB (cs : List Char) (p e : Nat) : Bool :=
  noWordBefore cs p && noWordAfter cs e && coreShapeB isStrictTldChar cs p e

/-- Validity of a candidate match `[p, e)` under true `\b` semantics (a
word/non-word transition at both ends) and the source's top-level class
(letters or `'|'`). -/
def transValidB (cs : List Char) (p e : Nat) : Bool :=
  boundaryB cs p && boundaryB cs e && coreShapeB isTldChar cs p e

/-- Longest valid end for a match starting at `i` (the "maximal substring"
at that position), for a given validity predicate. -/
def stepOfValid (cs : List Char) (v : List Char → Nat → Nat → Bool) (i : Nat) : Option Nat :=
  listMaxN ((List.range (cs.length + 1)).filter (v cs i))

/-- Left-to-right, non-overlapping scan taking the maximal valid match at
each position: the discovery sequence as the spec describes it. -/
def specDiscovery (v : List Char → Nat → Nat → Bool) (content : String) : List String :=
  (scanWith content.data (stepOfValid content.data v) (content.data.length + 2) 0).map
    (fun l => String.mk l)

/-- The discovery sequence exactly as claimed (letters-only top-level
label, no adjacent word characters). -/
def claimedDiscovery (content : String) : List String :=
  specDiscovery claimedValidB content

/-- The discovery sequence with the two corrections forced by the source
pattern (`'|'` in the top-level class, transition semantics for `\b`). -/
def amendedDiscovery (content : String) : List String :=
  specDiscovery transValidB content

/-! ## Sanity checks of the embedding on concrete inputs -/

example : findallEmails "a@b.co" = ["a@b.co"] := by decide
example : validUrlB "https://www.python.org" = true := by decide
example : validUrlB "notaurl" = false := by decide
example : validUrlB "mailto:someone" = false := by decide
example : validUrlB "//host/path" = false := by decide
example : findTitle "<html><TITLE lang=x>  Hello &amp; Co </title></html>" = some "Hello & Co" := by decide
example : findTitle "<html><title>no close" = none := by decide
example : parentChain "a/b/c" = ["a", "a/b", "a/b/c"] := by decide
example :
    move_jpg_files ⟨["s"], [("s", "x.jpg"), ("s", "y.txt")]⟩ "s" "o/m" =
      ((1, []), ⟨["s", "o", "o/m"], [("o/m", "x.jpg"), ("s", "y.txt")]⟩) := by decide
example :
    move_jpg_files ⟨[], []⟩ "s" "d" = ((0, ["Source folder 's' does not exist."]), ⟨[], []⟩) := by decide
example : strictMatchB "user@example.com" = true := by decide
example : strictMatchB "bad@domain" = false := by decide
example : discFullB "a@b.c|d" = true := by decide
example : strictMatchB "a@b.c|d" = false := by decide
example : findallEmails "a@b.cd|ef" = ["a@b.cd|ef"] := by decide
example : findallEmails "hi x.y@mail.co, ok" = ["x.y@mail.co"] := by decide
example : dedupe ["a@b.com", "A@B.COM"] = ["a@b.com"] := by decide
example : findallEmails "contact a@b.com or A@B.COM today" = ["a@b.com", "A@B.COM"] := by decide
example :
    validate_emails ["user@example.com", "bad@domain", "x@y.co.uk"] =
      ⟨["user@example.com", "x@y.co.uk"], ["bad@domain"], 2, 1⟩ := by decide
example : parentDir "data/in.txt" = "data" := by decide
example : parentDir "in.txt" = "." := by decide
example : outPathOf "data/in.txt" none "20240101_120000" = "data/extracted_emails_20240101_120000.txt" := by decide
example :
    parseEnumeratedLines (reportChars "in.txt" "2024-01-01 12:00:00" ["a@b.co", "c@d.org"]) =
      ["a@b.co", "c@d.org"] := by decide
example : splitCh '\n' "ab\ncd\n".data = ["ab".data, "cd".data, []] := by decide
example : claimedDiscovery "a@b.cd|ef" = ["a@b.cd"] := by decide
example : amendedDiscovery "a@b.cd|ef" = ["a@b.cd|ef"] := by decide
example : claimedDiscovery "hi x.y@mail.co, ok" = ["x.y@mail.co"] := by decide

/-! ## Facts about `validate_emails` -/

lemma validateGo_eq (l : List String) :
    validateGo l = (l.filter strictMatchB, l.filter (fun e => !strictMatchB e)) := by
  induction l with
  | nil => rfl
  | cons e rest ih => cases h : strictMatchB e <;> simp [validateGo, ih, List.filter_cons, h]

lemma length_filter_not_sum (p : String → Bool) (l : List String) :
    (l.filter p).length + (l.filter (fun e => !p e)).length = l.length := by
  induction l with
  | nil => rfl
  | cons e rest ih => cases h : p e <;> simp [List.filter_cons, h] <;> omega

/-- C4: for every list of emails given to `validate_emails`, the returned
valid and invalid lists partition the input: the lengths add up to the
input length, every input entry appears in exactly one of the two lists,
and each list is a sublist of the input (so relative order is the input
order). -/
theorem claim_C4 (l : List String) :
    (validate_emails l).valid.length + (validate_emails l).invalid.length = l.length ∧
    (validate_emails l).valid.Sublist l ∧
    (validate_emails l).invalid.Sublist l ∧
    (∀ e ∈ l,
      (e ∈ (validate_emails l).valid ∧ e ∉ (validate_emails l).invalid) ∨
      (e ∈ (validate_emails l).invalid ∧ e ∉ (validate_emails l).valid)) := by
  have hv : (validate_emails l).valid = l.filter strictMatchB := by
    simp [validate_emails, validateGo_eq]
  have hi : (validate_emails l).invalid = l.filter (fun e => !strictMatchB e) := by
    simp [validate_emails, validateGo_eq]
  refine ⟨?_, ?_, ?_, ?_⟩
  · rw [hv, hi]; exact length_filter_not_sum _ l
  · rw [hv]; exact List.filter_sublist l
  · rw [hi]; exact List.filter_sublist l
  · intro e he
    rw [hv, hi]
    cases h : strictMatchB e with
    | true => exact Or.inl ⟨List.mem_filter.mpr ⟨he, h⟩, by simp [List.mem_filter, h]⟩
    | false => exact Or.inr ⟨List.mem_filter.mpr ⟨he, by simp [h]⟩, by simp [List.mem_filter, h]⟩

/-! ## Facts about the extraction pipeline state passing -/

/-- C6: for every non-existent input path, `extract_emails_from_text`
returns an empty list and a null output path and leaves the file system
untouched (it aborts before any matching). -/
theorem claim_C6 (fs : FS) (input : String) (output? : Option String) (tn td : String)
    (h : lookupFile fs input = none) :
    extract_emails_from_text fs input output? tn td = (([], none), fs) := by
  unfold extract_emails_from_text
  rw [h]

theorem claim_C6_witness :
    lookupFile ⟨[("a.txt", "x")]⟩ "missing.txt" = none ∧
    extract_emails_from_text ⟨[("a.txt", "x")]⟩ "missing.txt" none "TS" "TD" =
      (([], none), ⟨[("a.txt", "x")]⟩) :=
  ⟨by decide, claim_C6 _ _ _ _ _ (by decide)⟩

lemma extract_result_emails (fs : FS) (input : String) (output? : Option String)
    (tn td content : String) (h : lookupFile fs input = some content) :
    (extract_emails_from_text fs input output? tn td).1.1 = dedupe (findallEmails content) := by
  unfold extract_emails_from_text
  rw [h]
  by_cases he : (dedupe (findallEmails content)).isEmpty <;> simp [he]

/-! ## Facts about deduplication -/

lemma dedupeAux_sublist : ∀ (l seen : List String), (dedupeAux l seen).Sublist l := by
  intro l
  induction l with
  | nil => intro seen; simp [dedupeAux]
  | cons e rest ih =>
      intro seen
      unfold dedupeAux
      by_cases h : lowerStr e ∈ seen
      · rw [if_pos h]; exact (ih seen).cons e
      · rw [if_neg h]; exact (ih _).cons₂ e

lemma dedupeAux_not_seen : ∀ (l seen : List String) (x : String),
    x ∈ dedupeAux l seen → lowerStr x ∉ seen := by
  intro l
  induction l with
  | nil => intro seen x hx; simp [dedupeAux] at hx
  | cons e rest ih =>
      intro seen x hx
      unfold dedupeAux at hx
      by_cases h : lowerStr e ∈ seen
      · rw [if_pos h] at hx; exact ih _ _ hx
      · rw [if_neg h] at hx
        rcases List.mem_cons.mp hx with rfl | hx'
        · exact h
        · intro hs
          exact ih _ _ hx' (List.mem_cons_of_mem _ hs)

lemma dedupeAux_pairwise : ∀ (l seen : List String),
    List.Pairwise (fun a b => lowerStr a ≠ lowerStr b) (dedupeAux l seen) := by
  intro l
  induction l with
  | nil => intro seen; simp [dedupeAux]
  | cons e rest ih =>
      intro seen
      unfold dedupeAux
      by_cases h : lowerStr e ∈ seen
      · rw [if_pos h]; exact ih seen
      · rw [if_neg h]
        refine List.Pairwise.cons ?_ (ih _)
        intro b hb heq
        exact (dedupeAux_not_seen _ _ _ hb) (by rw [← heq]; exact List.mem_cons_self _ _)

lemma dedupeAux_first : ∀ (l seen : List String) (x : String), x ∈ dedupeAux l seen →
    ∃ pre post, l = pre ++ x :: post ∧ ∀ y ∈ pre, lowerStr y ≠ lowerStr x := by
  intro l
  induction l with
  | nil => intro seen x hx; simp [dedupeAux] at hx
  | cons e rest ih =>
      intro seen x hx
      unfold dedupeAux at hx
      by_cases h : lowerStr e ∈ seen
      · rw [if_pos h] at hx
        obtain ⟨pre, post, heq, hpre⟩ := ih _ _ hx
        refine ⟨e :: pre, post, by rw [heq]; rfl, ?_⟩
        intro y hy
        rcases List.mem_cons.mp hy with rfl | hy'
        · intro heq2
          exact dedupeAux_not_seen _ _ _ hx (heq2 ▸ h)
        · exact hpre y hy'
      · rw [if_neg h] at hx
        rcases List.mem_cons.mp hx with rfl | hx'
        · exact ⟨[], rest, rfl, by simp⟩
        · obtain ⟨pre, post, heq, hpre⟩ := ih _ _ hx'
          refine ⟨e :: pre, post, by rw [heq]; rfl, ?_⟩
          intro y hy
          rcases List.mem_cons.mp hy with rfl | hy'
          · intro heq2
            exact dedupeAux_not_seen _ _ _ hx' (heq2 ▸ List.mem_cons_self _ _)
          · exact hpre y hy'

lemma dedupeAux_cover : ∀ (l seen : List String) (y : String), y ∈ l →
    lowerStr y ∈ seen ∨ ∃ x ∈ dedupeAux l seen, lowerStr x = lowerStr y := by
  intro l
  induction l with
  | nil => intro seen y hy; cases hy
  | cons e rest ih =>
      intro seen y hy
      unfold dedupeAux
      by_cases h : lowerStr e ∈ seen
      · rw [if_pos h]
        rcases List.mem_cons.mp hy with rfl | hy'
        · exact Or.inl h
        · exact ih seen y hy'
      · rw [if_neg h]
        rcases List.mem_cons.mp hy with rfl | hy'
        · exact Or.inr ⟨y, List.mem_cons_self _ _, rfl⟩
        · rcases ih (lowerStr e :: seen) y hy' with hseen | ⟨x, hx, hxy⟩
          · rcases List.mem_cons.mp hseen with heq | hs
            · exact Or.inr ⟨e, List.mem_cons_self _ _, heq.symm⟩
            · exact Or.inl hs
          · exact Or.inr ⟨x, List.mem_cons_of_mem _ hx, hxy⟩

/-- C5: the deduplicated list returned by `extract_emails_from_text` has no
two entries equal under case-insensitive comparison, is a sublist of the
raw discovery sequence (so order and surface forms are first-appearance
ones), each entry is the first element of its case-insensitive class in
the discovery sequence, and every discovered email is represented. -/
theorem claim_C5 (fs : FS) (input : String) (output? : Option String) (tn td content : String)
    (h : lookupFile fs input = some content) :
    List.Pairwise (fun a b => lowerStr a ≠ lowerStr b)
      (extract_emails_from_text fs input output? tn td).1.1 ∧
    ((extract_emails_from_text fs input output? tn td).1.1).Sublist (findallEmails content) ∧
    (∀ x ∈ (extract_emails_from_text fs input output? tn td).1.1,
      ∃ pre post, findallEmails content = pre ++ x :: post ∧ ∀ y ∈ pre, lowerStr y ≠ lowerStr x) ∧
    (∀ y ∈ findallEmails content,
      ∃ x ∈ (extract_emails_from_text fs input output? tn td).1.1, lowerStr x = lowerStr y) := by
  rw [extract_result_emails fs input output? tn td content h]
  refine ⟨dedupeAux_pairwise _ _, dedupeAux_sublist _ _, ?_, ?_⟩
  · intro x hx
    exact dedupeAux_first _ _ _ hx
  · intro y hy
    rcases dedupeAux_cover _ [] y hy with hs | hok
    · cases hs
    · exact hok

theorem claim_C5_witness :
    lookupFile ⟨[("in.txt", "a@b.co or A@B.CO")]⟩ "in.txt" = some "a@b.co or A@B.CO" ∧
    List.Pairwise (fun a b => lowerStr a ≠ lowerStr b)
      (extract_emails_from_text ⟨[("in.txt", "a@b.co or A@B.CO")]⟩ "in.txt" none "TS" "TD").1.1 :=
  ⟨by decide,
    (claim_C5 ⟨[("in.txt", "a@b.co or A@B.CO")]⟩ "in.txt" none "TS" "TD" "a@b.co or A@B.CO"
      (by decide)).1⟩

/-- C1 as stated is false: on a readable input with zero matches the
returned output path is not null (the source returns `str(output_file)` on
line 89 even when nothing was written). -/
theorem claim_C1_counterexample :
    (extract_emails_from_text ⟨[("in.txt", "hello world")]⟩ "in.txt" none "TS" "TD").1.1 = [] ∧
    (extract_emails_from_text ⟨[("in.txt", "hello world")]⟩ "in.txt" none "TS" "TD").1.2 ≠ none := by
  decide

/-- C1 (amended): for every readable input whose content yields zero
email-like matches, `extract_emails_from_text` returns an empty list
together with the computed (but unwritten) output path, and writes no
report file. -/
theorem claim_C1 (fs : FS) (input : String) (output? : Option String) (tn td content : String)
    (hread : lookupFile fs input = some content) (hzero : findallEmails content = []) :
    extract_emails_from_text fs input output? tn td =
      (([], some (outPathOf input output? tn)), fs) := by
  unfold extract_emails_from_text
  rw [hread]
  simp [hzero, dedupe, dedupeAux]

theorem claim_C1_witness :
    lookupFile ⟨[("in.txt", "hello world")]⟩ "in.txt" = some "hello world" ∧
    findallEmails "hello world" = [] ∧
    extract_emails_from_text ⟨[("in.txt", "hello world")]⟩ "in.txt" none "TS" "TD" =
      (([], some (outPathOf "in.txt" none "TS")), ⟨[("in.txt", "hello world")]⟩) :=
  ⟨by decide, by decide,
    claim_C1 ⟨[("in.txt", "hello world")]⟩ "in.txt" none "TS" "TD" "hello world"
      (by decide) (by decide)⟩

/-! ## Facts about the scraper -/

/-- C9: for every URL whose parse lacks a scheme or a network location,
`scrape_webpage_title` returns `(none, none, none)` immediately, performs
no network request, and writes nothing. -/
theorem claim_C9 (url : String) (output? : Option String) (outcome : FetchOutcome) (ts : String)
    (h : validUrlB url = false) :
    scrape_webpage_title url output? outcome ts = ⟨none, none, none, false, [], .invalidUrl⟩ := by
  unfold scrape_webpage_title
  rw [h]
  simp

theorem claim_C9_witness :
    validUrlB "notaurl" = false ∧
    scrape_webpage_title "notaurl" none (.ok 200 "<title>hi</title>") "TS" =
      ⟨none, none, none, false, [], .invalidUrl⟩ :=
  ⟨by decide, claim_C9 _ none _ "TS" (by decide)⟩

/-- C8: for every valid URL, each of the five failure modes (timeout,
connection failure, other transport error, non-200 status, missing title
tag) is surfaced as a `(none, none, status-or-none)` triple from its own
distinct branch, with no exception reaching the caller (the model is a
total function). -/
theorem claim_C8 (url : String) (output? : Option String) (ts : String)
    (h : validUrlB url = true) :
    scrape_webpage_title url output? .timeout ts = ⟨none, none, none, true, [], .timedOut⟩ ∧
    scrape_webpage_title url output? .connectionError ts = ⟨none, none, none, true, [], .connFailed⟩ ∧
    scrape_webpage_title url output? .requestError ts = ⟨none, none, none, true, [], .reqFailed⟩ ∧
    (∀ status body, status ≠ 200 →
      scrape_webpage_title url output? (.ok status body) ts =
        ⟨none, none, some status, true, [], .badStatus⟩) ∧
    (∀ body, findTitle body = none →
      scrape_webpage_title url output? (.ok 200 body) ts =
        ⟨none, none, some 200, true, [], .noTitle⟩) ∧
    List.Pairwise (fun a b => a ≠ b)
      ([.timedOut, .connFailed, .reqFailed, .badStatus, .noTitle] : List ScrapeBranch) := by
  refine ⟨?_, ?_, ?_, ?_, ?_, by decide⟩
  · simp [scrape_webpage_title, h]
  · simp [scrape_webpage_title, h]
  · simp [scrape_webpage_title, h]
  · intro status body hs
    simp [scrape_webpage_title, h, hs]
  · intro body hb
    simp [scrape_webpage_title, h, hb]

theorem claim_C8_witness :
    validUrlB "http://a" = true ∧ (404 : Nat) ≠ 200 ∧
    scrape_webpage_title "http://a" none (.ok 404 "x") "TS" =
      ⟨none, none, some 404, true, [], .badStatus⟩ :=
  ⟨by decide, by decide, (claim_C8 "http://a" none "TS" (by decide)).2.2.2.1 404 "x" (by decide)⟩

/-! ## Facts about the image mover -/

lemma moveLoop_dirs (src dst : String) : ∀ (names : List String) (fs : MoveFS) (count : Nat),
    (moveLoop src dst names fs count).2.dirs = fs.dirs := by
  intro names
  induction names with
  | nil => intro fs count; rfl
  | cons n rest ih =>
      intro fs count
      unfold moveLoop
      by_cases h : (dst, n) ∈ fs.files <;> simp [h, ih]

lemma splitCh_ne_nil (c : Char) (l : List Char) : splitCh c l ≠ [] := by
  induction l with
  | nil => simp [splitCh]
  | cons x xs ih =>
      unfold splitCh
      cases h : splitCh c xs with
      | nil => simp
      | cons hd tl => by_cases hx : x = c <;> simp [hx]

lemma joinSegs_splitCh (l : List Char) : joinSegs (splitCh '/' l) = l := by
  induction l with
  | nil => rfl
  | cons x xs ih =>
      unfold splitCh
      cases h : splitCh '/' xs with
      | nil => exact absurd h (splitCh_ne_nil _ _)
      | cons hd tl =>
          rw [h] at ih
          show joinSegs (if x = '/' then [] :: hd :: tl else (x :: hd) :: tl) = x :: xs
          by_cases hx : x = '/'
          · rw [if_pos hx, hx]
            cases tl <;> simp [joinSegs] at ih ⊢ <;> simp [ih]
          · rw [if_neg hx]
            cases tl <;> simp [joinSegs] at ih ⊢ <;> simp [ih]

lemma self_mem_parentChain (p : String) : p ∈ parentChain p := by
  unfold parentChain
  have hne : pathSegs p ≠ [] := splitCh_ne_nil _ _
  have hlen : 0 < (pathSegs p).length := List.length_pos.mpr hne
  refine List.mem_map.mpr ⟨(pathSegs p).length - 1, List.mem_range.mpr (by omega), ?_⟩
  rw [Nat.sub_add_cancel hlen, List.take_length]
  show String.mk (joinSegs (splitCh '/' p.data)) = p
  rw [joinSegs_splitCh]

/-- C10: `move_jpg_files` creates the destination directory (with all its
ancestors) whenever the source folder exists, even when no image files are
found; when the source folder does not exist it returns `(0, [message])`
and changes nothing. -/
theorem claim_C10 (fs : MoveFS) (src dst : String) :
    (src ∈ fs.dirs →
      dst ∈ (move_jpg_files fs src dst).2.dirs ∧
      ∀ q ∈ parentChain dst, q ∈ (move_jpg_files fs src dst).2.dirs) ∧
    (src ∉ fs.dirs →
      move_jpg_files fs src dst =
        ((0, ["Source folder '" ++ src ++ "' does not exist."]), fs)) := by
  constructor
  · intro h
    have hdirs : (move_jpg_files fs src dst).2.dirs =
        fs.dirs ++ (parentChain dst).filter (fun d => d ∉ fs.dirs) := by
      unfold move_jpg_files
      rw [if_pos h]
      cases he : (jpgCandidates fs src).isEmpty <;> simp [he, moveLoop_dirs]
    have hmem : ∀ q ∈ parentChain dst, q ∈ (move_jpg_files fs src dst).2.dirs := by
      intro q hq
      rw [hdirs]
      by_cases hqf : q ∈ fs.dirs
      · exact List.mem_append_left _ hqf
      · exact List.mem_append_right _ (List.mem_filter.mpr ⟨hq, by simpa⟩)
    exact ⟨hmem dst (self_mem_parentChain dst), hmem⟩
  · intro h
    unfold move_jpg_files
    rw [if_neg h]

theorem claim_C10_witness :
    ("s" ∈ (⟨["s"], []⟩ : MoveFS).dirs ∧
      "a/b" ∈ (move_jpg_files ⟨["s"], []⟩ "s" "a/b").2.dirs) ∧
    ("s" ∉ (⟨[], []⟩ : MoveFS).dirs ∧
      move_jpg_files ⟨[], []⟩ "s" "d" =
        ((0, ["Source folder '" ++ "s" ++ "' does not exist."]), ⟨[], []⟩)) :=
  ⟨⟨by decide, ((claim_C10 ⟨["s"], []⟩ "s" "a/b").1 (by decide)).1⟩,
   ⟨by decide, (claim_C10 ⟨[], []⟩ "s" "d").2 (by decide)⟩⟩

/-! ## Characterisation of the regex engine on the email core

These lemmas identify the end-position lists computed by `reRun` on the
two email patterns with a declarative description, and show that the head
of the list (the match the engine reports) is the longest valid end. -/

lemma descFrom_mem {a k e : Nat} : e ∈ descFrom a k ↔ a + 1 ≤ e ∧ e ≤ a + k := by
  induction k with
  | zero => simp [descFrom]; omega
  | succ k ih =>
      simp only [descFrom, List.mem_cons, ih]
      omega

lemma runLenL_le (q : Char → Bool) : ∀ l : List Char, runLenL q l ≤ l.length := by
  intro l
  induction l with
  | nil => simp [runLenL]
  | cons c rest ih =>
      unfold runLenL
      cases h : q c
      · simp [h]
      · simp [h]
        omega

lemma runLenL_get (q : Char → Bool) : ∀ (l : List Char) (m : Nat), m < runLenL q l →
    ∃ c, l[m]? = some c ∧ q c = true := by
  intro l
  induction l with
  | nil => intro m hm; simp [runLenL] at hm
  | cons c rest ih =>
      intro m hm
      unfold runLenL at hm
      cases h : q c with
      | false => simp [h] at hm
      | true =>
          simp only [h, if_pos] at hm
          cases m with
          | zero => exact ⟨c, by simp, h⟩
          | succ m =>
              obtain ⟨c', hc', hq⟩ := ih m (by omega)
              exact ⟨c', by simpa using hc', hq⟩

lemma runLenL_stop (q : Char → Bool) : ∀ (l : List Char) (c : Char),
    l[runLenL q l]? = some c → q c = false := by
  intro l
  induction l with
  | nil => intro c hc; simp at hc
  | cons x rest ih =>
      intro c hc
      unfold runLenL at hc
      cases h : q x with
      | false =>
          simp only [h, if_neg] at hc
          simp at hc
          rw [← hc]
          exact h
      | true =>
          simp only [h, if_pos] at hc
          simp at hc
          exact ih c hc

lemma runLenL_max (q : Char → Bool) : ∀ (l : List Char) (n : Nat),
    (∀ m, m < n → ∃ c, l[m]? = some c ∧ q c = true) → n ≤ runLenL q l := by
  intro l
  induction l with
  | nil =>
      intro n hn
      cases n with
      | zero => simp
      | succ n =>
          obtain ⟨c, hc, _⟩ := hn 0 (by omega)
          simp at hc
  | cons x rest ih =>
      intro n hn
      cases n with
      | zero => exact Nat.zero_le _
      | succ n =>
          obtain ⟨c, hc, hq⟩ := hn 0 (by omega)
          simp at hc
          subst hc
          unfold runLenL
          rw [hq]
          simp only [if_pos]
          have : n ≤ runLenL q rest := by
            refine ih n (fun m hm => ?_)
            obtain ⟨c', hc', hq'⟩ := hn (m + 1) (by omega)
            exact ⟨c', by simpa using hc', hq'⟩
          omega

lemma runLen_get {q : Char → Bool} {cs : List Char} {i m : Nat} (hm : m < runLen q cs i) :
    ∃ c, cs[i + m]? = some c ∧ q c = true := by
  obtain ⟨c, hc, hq⟩ := runLenL_get q (cs.drop i) m hm
  exact ⟨c, by rw [← List.getElem?_drop]; exact hc, hq⟩

lemma runLen_stop {q : Char → Bool} {cs : List Char} {i : Nat} {c : Char}
    (hc : cs[i + runLen q cs i]? = some c) : q c = false :=
  runLenL_stop q (cs.drop i) c (by rw [List.getElem?_drop]; exact hc)

lemma runLen_max {q : Char → Bool} {cs : List Char} {i n : Nat}
    (hn : ∀ m, m < n → ∃ c, cs[i + m]? = some c ∧ q c = true) : n ≤ runLen q cs i :=
  runLenL_max q (cs.drop i) n (fun m hm => by
    obtain ⟨c, hc, hq⟩ := hn m hm
    exact ⟨c, by rw [List.getElem?_drop]; exact hc, hq⟩)

lemma runLen_le (q : Char → Bool) (cs : List Char) (i : Nat) :
    runLen q cs i ≤ cs.length - i := by
  have := runLenL_le q (cs.drop i)
  simpa using this

lemma sliceAllB_iff {q : Char → Bool} {cs : List Char} {a b : Nat} (hb : b ≤ cs.length) :
    sliceAllB q cs a b = true ↔
      ∀ m, a ≤ m → m < b → ∃ c, cs[m]? = some c ∧ q c = true := by
  unfold sliceAllB
  rw [List.all_eq_true]
  constructor
  · intro hall m ham hmb
    have hmlen : m < cs.length := lt_of_lt_of_le hmb hb
    have hsl : ((cs.drop a).take (b - a))[m - a]? = some cs[m] := by
      rw [List.getElem?_take]
      rw [if_pos (by omega), List.getElem?_drop, show a + (m - a) = m from by omega]
      exact List.getElem?_eq_getElem hmlen
    exact ⟨cs[m], List.getElem?_eq_getElem hmlen, hall _ (List.getElem?_mem hsl)⟩
  · intro hp x hx
    obtain ⟨n, hn⟩ := List.getElem?_of_mem hx
    have hlt : n < ((cs.drop a).take (b - a)).length := (List.getElem?_eq_some.mp hn).1
    have hlt2 : n < b - a := by
      have : ((cs.drop a).take (b - a)).length ≤ b - a := by
        simp [List.length_take]
      omega
    rw [List.getElem?_take, if_pos hlt2, List.getElem?_drop] at hn
    obtain ⟨c, hc, hq⟩ := hp (a + n) (by omega) (by omega)
    have : x = c := by injection hn.symm.trans hc
    rw [this]
    exact hq

lemma ite_singleton_flatMap (P : Prop) [Decidable P] (x : Nat) (g : Nat → List Nat) :
    (if P then [x] else []).flatMap g = if P then g x else [] := by
  split <;> simp

lemma flatMap_if_bool (l : List Nat) (p : Nat → Bool) :
    (l.flatMap fun e => if p e then [e] else []) = l.filter p := by
  induction l with
  | nil => rfl
  | cons x xs ih => cases h : p x <;> simp [h, ih]

lemma flatMap_ite_singleton (l : List Nat) (p : Nat → Prop) [DecidablePred p] :
    (l.flatMap fun e => if p e then [e] else []) = l.filter (fun e => decide (p e)) := by
  induction l with
  | nil => rfl
  | cons x xs ih => by_cases h : p x <;> simp [h, ih]

lemma flatMap_descFrom_top (f : Nat → List Nat) (a : Nat) :
    ∀ k, (∀ m, a + 1 ≤ m → m < a + k → f m = []) →
      (descFrom a k).flatMap f = if 1 ≤ k then f (a + k) else [] := by
  intro k
  induction k with
  | zero => intro _; simp [descFrom]
  | succ k ih =>
      intro h
      have hrest : (descFrom a k).flatMap f = if 1 ≤ k then f (a + k) else [] :=
        ih (fun m hm1 hm2 => h m hm1 (by omega))
      rw [if_pos (by omega)]
      simp only [descFrom, List.flatMap_cons]
      rw [hrest]
      by_cases hk : 1 ≤ k
      · rw [if_pos hk, h (a + k) (by omega) (by omega)]
        simp
      · rw [if_neg hk]
        simp

lemma coreRun_eq (t : Char → Bool) (cs : List Char) (i : Nat) :
    reRun cs (emailCore t) i =
      if 1 ≤ runLen isLocalChar cs i ∧ cs[i + runLen isLocalChar cs i]? = some '@' then
        domBlocks t cs (i + runLen isLocalChar cs i + 1)
      else [] := by
  have h1 : reRun cs (emailCore t) i =
      (descFrom i (runLen isLocalChar cs i)).flatMap
        (fun m => if cs[m]? = some '@' then domBlocks t cs (m + 1) else []) := by
    simp only [emailCore, reRun, ite_singleton_flatMap]
    rfl
  rw [h1, flatMap_descFrom_top _ i (runLen isLocalChar cs i) ?low]
  case low =>
    intro m hm1 hm2
    obtain ⟨c, hc, hq⟩ := @runLen_get isLocalChar cs i (m - i) (by omega)
    rw [show i + (m - i) = m from by omega] at hc
    rw [if_neg]
    intro hcontra
    have hca : c = '@' := by injection hc.symm.trans hcontra
    rw [hca] at hq
    exact absurd hq (by decide)
  by_cases hk : 1 ≤ runLen isLocalChar cs i
  · by_cases hg : cs[i + runLen isLocalChar cs i]? = some '@' <;> simp [hk, hg]
  · simp [hk]

lemma tldBlock_mem {t : Char → Bool} {cs : List Char} {j x : Nat} :
    x ∈ tldBlock t cs j ↔
      cs[j]? = some '.' ∧ 2 ≤ runLen t cs (j + 1) ∧
      j + 3 ≤ x ∧ x ≤ j + 1 + runLen t cs (j + 1) := by
  unfold tldBlock
  by_cases h1 : cs[j]? = some '.'
  · rw [if_pos h1]
    by_cases h2 : 2 ≤ runLen t cs (j + 1)
    · rw [if_pos h2, descFrom_mem]
      constructor
      · rintro ⟨hl, hr⟩
        exact ⟨h1, h2, by omega, by omega⟩
      · rintro ⟨_, _, hl, hr⟩
        omega
    · rw [if_neg h2]
      simp only [List.not_mem_nil, false_iff]
      rintro ⟨_, hc, _⟩
      exact h2 hc
  · rw [if_neg h1]
    simp only [List.not_mem_nil, false_iff]
    rintro ⟨hc, _⟩
    exact h1 hc

lemma domBlocks_mem {t : Char → Bool} {cs : List Char} {q x : Nat} :
    x ∈ domBlocks t cs q ↔
      ∃ j, q + 1 ≤ j ∧ j ≤ q + runLen isDomainChar cs q ∧ x ∈ tldBlock t cs j := by
  unfold domBlocks
  rw [List.mem_flatMap]
  constructor
  · rintro ⟨j, hj, hx⟩
    rw [descFrom_mem] at hj
    exact ⟨j, hj.1, hj.2, hx⟩
  · rintro ⟨j, h1, h2, hx⟩
    exact ⟨j, descFrom_mem.mpr ⟨h1, h2⟩, hx⟩

lemma coreShapeB_iff {t : Char → Bool} {cs : List Char} {p e : Nat} :
    coreShapeB t cs p e = true ↔
      ∃ a d, p + 1 ≤ a ∧ a + 2 ≤ d ∧ d + 3 ≤ e ∧ e ≤ cs.length ∧
        sliceAllB isLocalChar cs p a = true ∧ cs[a]? = some '@' ∧
        sliceAllB isDomainChar cs (a + 1) d = true ∧ cs[d]? = some '.' ∧
        sliceAllB t cs (d + 1) e = true := by
  unfold coreShapeB
  rw [List.any_eq_true]
  constructor
  · rintro ⟨a, _, ha2⟩
    rw [List.any_eq_true] at ha2
    obtain ⟨d, _, hd2⟩ := ha2
    simp only [Bool.and_eq_true, Nat.ble_eq, beq_iff_eq] at hd2
    obtain ⟨⟨⟨⟨⟨⟨⟨⟨h1, h2⟩, h3⟩, h4⟩, h5⟩, h6⟩, h7⟩, h8⟩, h9⟩ := hd2
    exact ⟨a, d, h1, h2, h3, h4, h5, h6, h7, h8, h9⟩
  · rintro ⟨a, d, h1, h2, h3, h4, h5, h6, h7, h8, h9⟩
    refine ⟨a, List.mem_range.mpr (by omega), ?_⟩
    rw [List.any_eq_true]
    refine ⟨d, List.mem_range.mpr (by omega), ?_⟩
    simp only [Bool.and_eq_true, Nat.ble_eq, beq_iff_eq]
    exact ⟨⟨⟨⟨⟨⟨⟨⟨h1, h2⟩, h3⟩, h4⟩, h5⟩, h6⟩, h7⟩, h8⟩, h9⟩

lemma coreRun_sound {t : Char → Bool} {cs : List Char} {i e : Nat}
    (h : e ∈ reRun cs (emailCore t) i) : coreShapeB t cs i e = true := by
  rw [coreRun_eq] at h
  by_cases hc : 1 ≤ runLen isLocalChar cs i ∧ cs[i + runLen isLocalChar cs i]? = some '@'
  case neg => rw [if_neg hc] at h; cases h
  rw [if_pos hc] at h
  obtain ⟨hk, hat⟩ := hc
  rw [domBlocks_mem] at h
  obtain ⟨j, hj1, hj2, hx⟩ := h
  rw [tldBlock_mem] at hx
  obtain ⟨hdot, htr, hx1, hx2⟩ := hx
  have hjlen : j < cs.length := (List.getElem?_eq_some.mp hdot).1
  have htle : runLen t cs (j + 1) ≤ cs.length - (j + 1) := runLen_le _ _ _
  have helen : e ≤ cs.length := by omega
  have halen : i + runLen isLocalChar cs i < cs.length := (List.getElem?_eq_some.mp hat).1
  rw [coreShapeB_iff]
  refine ⟨i + runLen isLocalChar cs i, j, by omega, by omega, by omega, helen, ?_, hat, ?_,
    hdot, ?_⟩
  · rw [sliceAllB_iff (by omega)]
    intro m hm1 hm2
    have := @runLen_get isLocalChar cs i (m - i) (by omega)
    rwa [show i + (m - i) = m from by omega] at this
  · rw [sliceAllB_iff (by omega)]
    intro m hm1 hm2
    have := @runLen_get isDomainChar cs (i + runLen isLocalChar cs i + 1)
      (m - (i + runLen isLocalChar cs i + 1)) (by omega)
    rwa [show i + runLen isLocalChar cs i + 1 + (m - (i + runLen isLocalChar cs i + 1)) = m
      from by omega] at this
  · rw [sliceAllB_iff helen]
    intro m hm1 hm2
    have := @runLen_get t cs (j + 1) (m - (j + 1)) (by omega)
    rwa [show j + 1 + (m - (j + 1)) = m from by omega] at this

lemma coreRun_complete {t : Char → Bool} {cs : List Char} {i e : Nat}
    (h : coreShapeB t cs i e = true) : e ∈ reRun cs (emailCore t) i := by
  rw [coreShapeB_iff] at h
  obtain ⟨a, d, h1, h2, h3, h4, h5, h6, h7, h8, h9⟩ := h
  have hlocal : ∀ m, m < a - i → ∃ c, cs[i + m]? = some c ∧ isLocalChar c = true := by
    intro m hm
    rw [sliceAllB_iff (by omega)] at h5
    exact h5 (i + m) (by omega) (by omega)
  have hk1 : a - i ≤ runLen isLocalChar cs i := runLen_max hlocal
  have hk2 : runLen isLocalChar cs i ≤ a - i := by
    by_contra hcon
    push_neg at hcon
    obtain ⟨c, hc, hq⟩ := @runLen_get isLocalChar cs i (a - i) hcon
    rw [show i + (a - i) = a from by omega] at hc
    have hca : c = '@' := by injection hc.symm.trans h6
    rw [hca] at hq
    exact absurd hq (by decide)
  have hk : runLen isLocalChar cs i = a - i := le_antisymm hk2 hk1
  rw [coreRun_eq, if_pos ⟨by omega, by rw [hk, show i + (a - i) = a from by omega]; exact h6⟩]
  rw [hk, show i + (a - i) + 1 = a + 1 from by omega]
  rw [domBlocks_mem]
  refine ⟨d, by omega, ?_, ?_⟩
  · have : d - (a + 1) ≤ runLen isDomainChar cs (a + 1) := by
      refine runLen_max (fun m hm => ?_)
      rw [sliceAllB_iff (by omega)] at h7
      exact h7 (a + 1 + m) (by omega) (by omega)
    omega
  · rw [tldBlock_mem]
    have htld : e - (d + 1) ≤ runLen t cs (d + 1) := by
      refine runLen_max (fun m hm => ?_)
      rw [sliceAllB_iff h4] at h9
      exact h9 (d + 1 + m) (by omega) (by omega)
    exact ⟨h8, by omega, by omega, by omega⟩

/-! ## The head of the engine's candidate list is the longest valid end -/

lemma filter_flatMap_comm (l : List Nat) (f : Nat → List Nat) (p : Nat → Bool) :
    (l.flatMap f).filter p = l.flatMap (fun x => (f x).filter p) := by
  induction l with
  | nil => rfl
  | cons x xs ih => simp [List.flatMap_cons, List.filter_append, ih]

lemma filter_descFrom_headMax (bnd : Nat → Bool) (a : Nat) :
    ∀ k h x, ((descFrom a k).filter bnd).head? = some h →
      x ∈ (descFrom a k).filter bnd → x ≤ h := by
  intro k
  induction k with
  | zero => intro h x hh hx; simp [descFrom] at hx
  | succ k ih =>
      intro h x hh hx
      simp only [descFrom, List.filter_cons] at hh hx
      by_cases hb : bnd (a + (k + 1)) = true
      · rw [if_pos hb] at hh hx
        rw [List.head?_cons] at hh
        injection hh with hh
        rcases List.mem_cons.mp hx with rfl | hx'
        · omega
        · have hmem := (List.mem_filter.mp hx').1
          have := (descFrom_mem.mp hmem).2
          omega
      · rw [if_neg hb] at hh hx
        exact ih h x hh hx

lemma tldBlock_le {t : Char → Bool} {cs : List Char} (ht : t '.' = false) {j j' x : Nat}
    (hdot : cs[j]? = some '.') (hlt : j' < j) (hx : x ∈ tldBlock t cs j') : x ≤ j := by
  rw [tldBlock_mem] at hx
  obtain ⟨_, _, hx1, hx2⟩ := hx
  have htr : runLen t cs (j' + 1) ≤ j - (j' + 1) := by
    by_contra hcon
    push_neg at hcon
    obtain ⟨c, hc, hq⟩ := @runLen_get t cs (j' + 1) (j - (j' + 1)) hcon
    rw [show j' + 1 + (j - (j' + 1)) = j from by omega] at hc
    have hcd : c = '.' := by injection hc.symm.trans hdot
    rw [hcd] at hq
    exact absurd hq (by simp [ht])
  omega

lemma domBlocks_filter_headMax {t : Char → Bool} {cs : List Char} (ht : t '.' = false)
    (bnd : Nat → Bool) (q : Nat) :
    ∀ k h x, ((descFrom q k).flatMap (fun j => (tldBlock t cs j).filter bnd)).head? = some h →
      x ∈ (descFrom q k).flatMap (fun j => (tldBlock t cs j).filter bnd) → x ≤ h := by
  intro k
  induction k with
  | zero => intro h x hh hx; simp [descFrom] at hx
  | succ k ih =>
      intro h x hh hx
      simp only [descFrom, List.flatMap_cons] at hh hx
      cases hB : (tldBlock t cs (q + (k + 1))).filter bnd with
      | nil =>
          rw [hB] at hh hx
          simp only [List.nil_append] at hh hx
          exact ih h x hh hx
      | cons y ys =>
          rw [hB] at hh hx
          simp only [List.cons_append, List.head?_cons, Option.some.injEq] at hh
          have hy : y ∈ (tldBlock t cs (q + (k + 1))).filter bnd := by
            rw [hB]
            exact List.mem_cons_self _ _
          have hytld : y ∈ tldBlock t cs (q + (k + 1)) := (List.mem_filter.mp hy).1
          have hdot : cs[q + (k + 1)]? = some '.' := (tldBlock_mem.mp hytld).1
          have htr2 : 2 ≤ runLen t cs (q + (k + 1) + 1) := (tldBlock_mem.mp hytld).2.1
          have hy3 : q + (k + 1) + 3 ≤ y := (tldBlock_mem.mp hytld).2.2.1
          have hblock : tldBlock t cs (q + (k + 1)) =
              descFrom (q + (k + 1) + 2) (runLen t cs (q + (k + 1) + 1) - 1) := by
            unfold tldBlock
            rw [if_pos hdot, if_pos htr2]
          rcases List.mem_append.mp hx with hx1 | hx2
          · have hxf : x ∈ (tldBlock t cs (q + (k + 1))).filter bnd := by
              rw [hB]
              exact hx1
            have hhf : ((descFrom (q + (k + 1) + 2) (runLen t cs (q + (k + 1) + 1) - 1)).filter
                bnd).head? = some y := by
              rw [← hblock, hB]
              rfl
            rw [hblock] at hxf
            have := filter_descFrom_headMax bnd _ _ y x hhf hxf
            omega
          · obtain ⟨j', hj', hxj⟩ := List.mem_flatMap.mp hx2
            have hj'le : j' ≤ q + k := (descFrom_mem.mp hj').2
            have hxtld : x ∈ tldBlock t cs j' := (List.mem_filter.mp hxj).1
            have := tldBlock_le ht hdot (by omega) hxtld
            omega

lemma discRun_eq (cs : List Char) (p : Nat) :
    reRun cs email_pattern p =
      if boundaryB cs p then
        (reRun cs (emailCore isTldChar) p).filter (fun e => boundaryB cs e)
      else [] := by
  simp only [email_pattern, reRun, ite_singleton_flatMap, flatMap_if_bool]

lemma coreShapeB_bounds {t : Char → Bool} {cs : List Char} {p e : Nat}
    (h : coreShapeB t cs p e = true) : p + 6 ≤ e ∧ e ≤ cs.length := by
  rw [coreShapeB_iff] at h
  obtain ⟨a, d, h1, h2, h3, h4, _, _, _, _, _⟩ := h
  omega

lemma discRun_mem {cs : List Char} {p e : Nat} :
    e ∈ reRun cs email_pattern p ↔ transValidB cs p e = true := by
  rw [discRun_eq]
  unfold transValidB
  cases hb : boundaryB cs p with
  | false => simp [hb]
  | true =>
      simp only [hb, if_true, List.mem_filter, Bool.true_and, Bool.and_eq_true]
      constructor
      · rintro ⟨hmem, hbe⟩
        exact ⟨hbe, coreRun_sound hmem⟩
      · rintro ⟨hbe, hcore⟩
        exact ⟨coreRun_complete hcore, hbe⟩

lemma discRun_headMax {cs : List Char} {p h x : Nat}
    (hh : (reRun cs email_pattern p).head? = some h) (hx : x ∈ reRun cs email_pattern p) :
    x ≤ h := by
  rw [discRun_eq] at hh hx
  by_cases hb : boundaryB cs p
  case neg => rw [if_neg hb] at hx; cases hx
  rw [if_pos hb] at hh hx
  rw [coreRun_eq] at hh hx
  by_cases hc : 1 ≤ runLen isLocalChar cs p ∧ cs[p + runLen isLocalChar cs p]? = some '@'
  case neg =>
    rw [if_neg hc] at hx
    simp at hx
  rw [if_pos hc] at hh hx
  unfold domBlocks at hh hx
  rw [filter_flatMap_comm] at hh hx
  exact domBlocks_filter_headMax (by decide) (fun e => boundaryB cs e) _ _ h x hh hx

/-! ## The engine step equals the longest-valid-end step -/

lemma listMaxN_eq_none {l : List Nat} : listMaxN l = none ↔ l = [] := by
  cases l with
  | nil => simp [listMaxN]
  | cons x xs =>
      unfold listMaxN
      cases h : listMaxN xs <;> simp

lemma listMaxN_mem : ∀ {l : List Nat} {m : Nat}, listMaxN l = some m → m ∈ l := by
  intro l
  induction l with
  | nil => intro m h; simp [listMaxN] at h
  | cons x xs ih =>
      intro m h
      unfold listMaxN at h
      cases hxs : listMaxN xs with
      | none =>
          rw [hxs] at h
          simp at h
          simp [← h]
      | some m' =>
          rw [hxs] at h
          simp at h
          by_cases hxm : x ≤ m'
          · rw [Nat.max_eq_right hxm] at h
            rw [← h]
            exact List.mem_cons_of_mem _ (ih hxs)
          · rw [Nat.max_eq_left (by omega)] at h
            simp [← h]

lemma le_listMaxN : ∀ {l : List Nat} {m x : Nat}, listMaxN l = some m → x ∈ l → x ≤ m := by
  intro l
  induction l with
  | nil => intro m x _ hx; cases hx
  | cons y ys ih =>
      intro m x h hx
      unfold listMaxN at h
      cases hys : listMaxN ys with
      | none =>
          rw [hys] at h
          simp at h
          have hnil : ys = [] := listMaxN_eq_none.mp hys
          subst hnil
          rcases List.mem_cons.mp hx with rfl | hx'
          · omega
          · cases hx'
      | some m' =>
          rw [hys] at h
          simp at h
          rcases List.mem_cons.mp hx with rfl | hx'
          · have := Nat.le_max_left x m'
            omega
          · have hx'' := ih hys hx'
            have := Nat.le_max_right y m'
            omega

lemma engine_step_eq (cs : List Char) (i : Nat) :
    (reRun cs email_pattern i).head? = stepOfValid cs transValidB i := by
  unfold stepOfValid
  cases hh : (reRun cs email_pattern i).head? with
  | none =>
      have hnil : reRun cs email_pattern i = [] := List.head?_eq_none_iff.mp hh
      have hfil : (List.range (cs.length + 1)).filter (transValidB cs i) = [] := by
        rw [List.filter_eq_nil_iff]
        intro e _ hv
        have hmem : e ∈ reRun cs email_pattern i := discRun_mem.mpr hv
        rw [hnil] at hmem
        cases hmem
      rw [hfil]
      rfl
  | some h =>
      have hmem : h ∈ reRun cs email_pattern i := List.mem_of_mem_head? (by simp [hh])
      have hvalid : transValidB cs i h = true := discRun_mem.mp hmem
      have hlen : h ≤ cs.length := by
        unfold transValidB at hvalid
        simp only [Bool.and_eq_true] at hvalid
        exact (coreShapeB_bounds hvalid.2).2
      have hinfilter : h ∈ (List.range (cs.length + 1)).filter (transValidB cs i) :=
        List.mem_filter.mpr ⟨List.mem_range.mpr (by omega), hvalid⟩
      cases hmax : listMaxN ((List.range (cs.length + 1)).filter (transValidB cs i)) with
      | none =>
          rw [listMaxN_eq_none] at hmax
          rw [hmax] at hinfilter
          cases hinfilter
      | some m =>
          have hm_mem := listMaxN_mem hmax
          have hm_valid : transValidB cs i m = true := (List.mem_filter.mp hm_mem).2
          have hm_le : m ≤ h := discRun_headMax hh (discRun_mem.mpr hm_valid)
          have hh_le : h ≤ m := le_listMaxN hmax hinfilter
          rw [show h = m from by omega]

lemma scanWith_congr {cs : List Char} {f g : Nat → Option Nat} (hfg : ∀ i, f i = g i) :
    ∀ fuel i, scanWith cs f fuel i = scanWith cs g fuel i := by
  intro fuel
  induction fuel with
  | zero => intro i; rfl
  | succ fuel ih =>
      intro i
      by_cases hi : cs.length < i
      · simp [scanWith, hi]
      · unfold scanWith
        rw [if_neg hi, if_neg hi, hfg i]
        cases g i <;> simp [ih]

/-- C3 as stated is false on the source pattern: the character class
`[A-Z|a-z]` of the discovery pattern contains a literal `'|'`, so on
`"a@b.cd|ef"` the engine matches `"a@b.cd|ef"` while the claimed sequence
(letters-only top-level label, no adjacent word characters) is
`["a@b.cd"]`. -/
theorem claim_C3_counterexample :
    findallEmails "a@b.cd|ef" = ["a@b.cd|ef"] ∧
    claimedDiscovery "a@b.cd|ef" = ["a@b.cd"] ∧
    findallEmails "a@b.cd|ef" ≠ claimedDiscovery "a@b.cd|ef" := by
  refine ⟨by decide, by decide, by decide⟩

/-- C3 (amended): for every input text, discovery produces exactly the
ordered sequence of non-overlapping, left-to-right maximal substrings of
the form `local-part@domain.tld` — with the top-level label drawn from
letters and `'|'` (the literal pipe in the source class `[A-Z|a-z]`), and
"word-boundary-delimited" read as `\b`'s word/non-word transition at both
ends — duplicates included. -/
theorem claim_C3 (content : String) : findallEmails content = amendedDiscovery content := by
  unfold findallEmails amendedDiscovery specDiscovery
  congr 1
  exact scanWith_congr (fun i => engine_step_eq content.data i) _ _

/-! ## Comparison of the strict pattern with the discovery pattern -/

lemma strictRun_eq (cs : List Char) :
    reRun cs strict_pattern 0 =
      (reRun cs (emailCore isStrictTldChar) 0).filter
        (fun e => decide (e = cs.length ∨ (e + 1 = cs.length ∧ cs[e]? = some '\n'))) := by
  simp only [strict_pattern, reRun, flatMap_ite_singleton]

lemma strictMatchB_iff (s : String) :
    strictMatchB s = true ↔
      ∃ e, coreShapeB isStrictTldChar s.data 0 e = true ∧
        (e = s.data.length ∨ (e + 1 = s.data.length ∧ s.data[e]? = some '\n')) := by
  unfold strictMatchB
  rw [strictRun_eq]
  constructor
  · intro h
    have hne : (reRun s.data (emailCore isStrictTldChar) 0).filter
        (fun e => decide (e = s.data.length ∨ (e + 1 = s.data.length ∧ s.data[e]? = some '\n')))
        ≠ [] := by
      intro hnil
      rw [hnil] at h
      simp at h
    obtain ⟨e, he⟩ := List.exists_mem_of_ne_nil _ hne
    have hdec := List.mem_filter.mp he
    exact ⟨e, coreRun_sound hdec.1, by simpa using hdec.2⟩
  · rintro ⟨e, hcore, hend⟩
    have hmem : e ∈ (reRun s.data (emailCore isStrictTldChar) 0).filter
        (fun e => decide (e = s.data.length ∨ (e + 1 = s.data.length ∧ s.data[e]? = some '\n'))) :=
      List.mem_filter.mpr ⟨coreRun_complete hcore, by simpa using hend⟩
    have hne := List.ne_nil_of_mem hmem
    cases hl : (reRun s.data (emailCore isStrictTldChar) 0).filter
        (fun e => decide (e = s.data.length ∨ (e + 1 = s.data.length ∧ s.data[e]? = some '\n'))) with
    | nil => exact absurd hl hne
    | cons a l => rfl

lemma discFullB_iff (s : String) :
    discFullB s = true ↔ transValidB s.data 0 s.data.length = true := by
  unfold discFullB
  have hcm : (reRun s.data email_pattern 0).contains s.data.length = true ↔
      s.data.length ∈ reRun s.data email_pattern 0 := by simp
  rw [hcm, discRun_mem]

lemma isAlpha_isWordChar {c : Char} (h : c.isAlpha = true) : isWordChar c = true := by
  simp [isWordChar, Char.isAlphanum, h]

lemma getElem?_zero_head (cs : List Char) : cs[0]? = cs.head? := by
  cases cs <;> simp

lemma coreShapeB_convert {t t' : Char → Bool} {cs : List Char} {p e : Nat}
    (h : coreShapeB t cs p e = true) (hc : ∀ c, c ∈ cs → t c = true → t' c = true) :
    coreShapeB t' cs p e = true := by
  rw [coreShapeB_iff] at h ⊢
  obtain ⟨a, d, h1, h2, h3, h4, h5, h6, h7, h8, h9⟩ := h
  refine ⟨a, d, h1, h2, h3, h4, h5, h6, h7, h8, ?_⟩
  rw [sliceAllB_iff h4] at h9 ⊢
  intro m hm1 hm2
  obtain ⟨c, hcm, hq⟩ := h9 m hm1 hm2
  exact ⟨c, hcm, hc c (List.getElem?_mem hcm) hq⟩

lemma coreShapeB_lastChar {t : Char → Bool} {cs : List Char} {p e : Nat}
    (h : coreShapeB t cs p e = true) : ∃ c, cs[e - 1]? = some c ∧ t c = true := by
  rw [coreShapeB_iff] at h
  obtain ⟨a, d, h1, h2, h3, h4, _, _, _, _, h9⟩ := h
  rw [sliceAllB_iff h4] at h9
  exact h9 (e - 1) (by omega) (by omega)

/-- C2 as stated is false: the two patterns do not have the same character
classes — the discovery class `[A-Z|a-z]` contains a literal `'|'` — so
`"a@b.c|d"` fully matches the discovery pattern yet fails the strict one. -/
theorem claim_C2_counterexample :
    discFullB "a@b.c|d" = true ∧ strictMatchB "a@b.c|d" = false := by
  decide

/-- C2 (amended): the strict pattern and the discovery pattern differ in
anchoring, but also in three details the counterexample forces: the
discovery top-level class additionally contains `'|'`, the `\b` anchors
require word characters at the edges, and the strict `$` also accepts one
trailing newline.  For strings outside those three corner cases — first
character a word character, no `'|'`, no newline — matching the strict
pattern coincides with the entire string matching the discovery pattern. -/
theorem claim_C2 (s : String)
    (hw : ∃ c, s.data.head? = some c ∧ isWordChar c = true)
    (hpipe : '|' ∉ s.data) (hnl : '\n' ∉ s.data) :
    strictMatchB s = true ↔ discFullB s = true := by
  obtain ⟨c0, hc0, hw0⟩ := hw
  rw [strictMatchB_iff, discFullB_iff]
  constructor
  · rintro ⟨e, hcore, hend⟩
    have he : e = s.data.length := by
      rcases hend with he | ⟨_, hchar⟩
      · exact he
      · exact absurd (List.getElem?_mem hchar) hnl
    subst he
    unfold transValidB
    simp only [Bool.and_eq_true]
    have hbounds := coreShapeB_bounds hcore
    refine ⟨⟨?_, ?_⟩, ?_⟩
    · unfold boundaryB
      rw [if_pos rfl]
      unfold wordAt
      rw [getElem?_zero_head, hc0]
      simp [hw0]
    · unfold boundaryB wordAt
      rw [if_neg (by omega)]
      obtain ⟨c, hcl, hq⟩ := coreShapeB_lastChar hcore
      rw [hcl, List.getElem?_eq_none (le_refl _)]
      simp [isAlpha_isWordChar hq]
    · refine coreShapeB_convert hcore (fun c _ hq => ?_)
      simp [isTldChar]
      exact Or.inl hq
  · intro hvalid
    unfold transValidB at hvalid
    simp only [Bool.and_eq_true] at hvalid
    refine ⟨s.data.length, ?_, Or.inl rfl⟩
    refine coreShapeB_convert hvalid.2 (fun c hcm hq => ?_)
    have hq2 : c.isAlpha = true ∨ c = '|' := by simpa [isTldChar] using hq
    rcases hq2 with hq' | hq'
    · exact hq'
    · rw [hq'] at hcm
      exact absurd hcm hpipe

/-! ## Round-trip of the extraction report -/

lemma scanWith_mem {cs : List Char} {step : Nat → Option Nat} :
    ∀ {fuel i m}, m ∈ scanWith cs step fuel i →
      ∃ p e, step p = some e ∧ m = (cs.drop p).take (e - p) := by
  intro fuel
  induction fuel with
  | zero => intro i m hm; cases hm
  | succ fuel ih =>
      intro i m hm
      unfold scanWith at hm
      by_cases hi : cs.length < i
      · rw [if_pos hi] at hm
        cases hm
      · rw [if_neg hi] at hm
        cases hstep : step i with
        | none => rw [hstep] at hm; exact ih hm
        | some e =>
            rw [hstep] at hm
            rcases List.mem_cons.mp hm with rfl | hm'
            · exact ⟨i, e, hstep, rfl⟩
            · exact ih hm'

lemma transValid_slice_chars {cs : List Char} {p e : Nat} (h : transValidB cs p e = true) :
    ∀ c ∈ (cs.drop p).take (e - p), c ≠ '\n' := by
  unfold transValidB at h
  simp only [Bool.and_eq_true] at h
  have hcore := h.2
  rw [coreShapeB_iff] at hcore
  obtain ⟨a, d, h1, h2, h3, h4, h5, h6, h7, h8, h9⟩ := hcore
  intro c hc
  obtain ⟨n, hn⟩ := List.getElem?_of_mem hc
  have hlt : n < ((cs.drop p).take (e - p)).length := (List.getElem?_eq_some.mp hn).1
  have hlt2 : n < e - p := by
    have : ((cs.drop p).take (e - p)).length ≤ e - p := by simp [List.length_take]
    omega
  rw [List.getElem?_take, if_pos hlt2, List.getElem?_drop] at hn
  intro hceq
  subst hceq
  by_cases hma : p + n < a
  · rw [sliceAllB_iff (by omega)] at h5
    obtain ⟨c', hc', hq⟩ := h5 (p + n) (by omega) hma
    have : '\n' = c' := by injection hn.symm.trans hc'
    rw [← this] at hq
    exact absurd hq (by decide)
  by_cases hma2 : p + n = a
  · rw [hma2] at hn
    have : '\n' = '@' := by injection hn.symm.trans h6
    exact absurd this (by decide)
  by_cases hmd : p + n < d
  · rw [sliceAllB_iff (by omega)] at h7
    obtain ⟨c', hc', hq⟩ := h7 (p + n) (by omega) hmd
    have : '\n' = c' := by injection hn.symm.trans hc'
    rw [← this] at hq
    exact absurd hq (by decide)
  by_cases hmd2 : p + n = d
  · rw [hmd2] at hn
    have : '\n' = '.' := by injection hn.symm.trans h8
    exact absurd this (by decide)
  · rw [sliceAllB_iff h4] at h9
    obtain ⟨c', hc', hq⟩ := h9 (p + n) (by omega) (by omega)
    have : '\n' = c' := by injection hn.symm.trans hc'
    rw [← this] at hq
    exact absurd hq (by decide)

lemma findall_no_newline (s : String) : ∀ m ∈ findallEmails s, '\n' ∉ m.data := by
  intro m hm
  unfold findallEmails at hm
  obtain ⟨l, hl, hml⟩ := List.mem_map.mp hm
  obtain ⟨p, e, hstep, hslice⟩ := scanWith_mem hl
  have hvalid : transValidB s.data p e = true := by
    have hmem : e ∈ reRun s.data email_pattern p := List.mem_of_mem_head? (by simp [hstep])
    exact discRun_mem.mp hmem
  intro hnl
  have hmd : m.data = (s.data.drop p).take (e - p) := by rw [← hml, hslice]
  rw [hmd] at hnl
  exact transValid_slice_chars hvalid '\n' hnl rfl

lemma dedupe_subset {l : List String} {x : String} (hx : x ∈ dedupe l) : x ∈ l :=
  (dedupeAux_sublist l []).subset hx

lemma digitChar_isDigit {m : Nat} (hm : m < 10) : (Char.ofNat (m + 48)).isDigit = true := by
  interval_cases m <;> decide

lemma natDecimalGo_all : ∀ (fuel n : Nat) (acc : List Char),
    (∀ c ∈ acc, c.isDigit = true) → ∀ c ∈ natDecimalGo fuel n acc, c.isDigit = true := by
  intro fuel
  induction fuel with
  | zero =>
      intro n acc hacc c hc
      unfold natDecimalGo at hc
      rcases List.mem_cons.mp hc with rfl | hc'
      · exact digitChar_isDigit (Nat.mod_lt _ (by omega))
      · exact hacc _ hc'
  | succ fuel ih =>
      intro n acc hacc c hc
      unfold natDecimalGo at hc
      by_cases hn : n < 10
      · rw [if_pos hn] at hc
        rcases List.mem_cons.mp hc with rfl | hc'
        · exact digitChar_isDigit hn
        · exact hacc _ hc'
      · rw [if_neg hn] at hc
        refine ih _ _ ?_ c hc
        intro c' hc'
        rcases List.mem_cons.mp hc' with rfl | hc''
        · exact digitChar_isDigit (Nat.mod_lt _ (by omega))
        · exact hacc _ hc''

lemma natDecimal_digits (n : Nat) : ∀ c ∈ natDecimal n, c.isDigit = true :=
  natDecimalGo_all n n [] (by simp)

lemma natDecimalGo_ne_nil : ∀ (fuel n : Nat) (acc : List Char), natDecimalGo fuel n acc ≠ [] := by
  intro fuel
  induction fuel with
  | zero => intro n acc; simp [natDecimalGo]
  | succ fuel ih =>
      intro n acc
      unfold natDecimalGo
      by_cases hn : n < 10
      · rw [if_pos hn]; simp
      · rw [if_neg hn]; exact ih _ _

lemma natDecimal_ne_nil (n : Nat) : natDecimal n ≠ [] :=
  natDecimalGo_ne_nil n n []

lemma takeWhile_append_all {p : Char → Bool} : ∀ {xs : List Char}, (∀ c ∈ xs, p c = true) →
    ∀ {y : Char}, p y = false → ∀ (rest : List Char),
      (xs ++ y :: rest).takeWhile p = xs ∧ (xs ++ y :: rest).dropWhile p = y :: rest := by
  intro xs
  induction xs with
  | nil =>
      intro _ y hy rest
      constructor <;> simp [List.takeWhile_cons, List.dropWhile_cons, hy]
  | cons x xs' ih =>
      intro hall y hy rest
      have hx : p x = true := hall x (List.mem_cons_self _ _)
      have ihres := ih (fun c hc => hall c (List.mem_cons_of_mem _ hc)) hy rest
      constructor <;>
        simp [List.takeWhile_cons, List.dropWhile_cons, hx, ihres.1, ihres.2]

lemma parseEnumLine_nonDigit {l : List Char} {c : Char} (h : l.head? = some c)
    (hd : c.isDigit = false) : parseEnumLine l = none := by
  cases l with
  | nil => rfl
  | cons x xs =>
      rw [List.head?_cons] at h
      have hx : x = c := by injection h
      have hxd : x.isDigit = false := by rw [hx]; exact hd
      unfold parseEnumLine
      rw [show (x :: xs).takeWhile Char.isDigit = [] from by simp [List.takeWhile_cons, hxd]]

lemma stringMk_data (s : String) : String.mk s.data = s := rfl

lemma parseEnumLine_enum (i : Nat) (e : String) :
    parseEnumLine (natDecimal i ++ '.' :: ' ' :: e.data) = some e := by
  have h := takeWhile_append_all (p := Char.isDigit) (natDecimal_digits i) (y := '.')
    (by decide) (' ' :: e.data)
  unfold parseEnumLine
  rw [h.1, h.2]
  cases hnd : natDecimal i with
  | nil => exact absurd hnd (natDecimal_ne_nil i)
  | cons c cs' => rfl

lemma splitCh_cons (c x : Char) (xs : List Char) :
    splitCh c (x :: xs) =
      match splitCh c xs with
      | [] => [[x]]
      | h :: t => if x = c then [] :: h :: t else (x :: h) :: t := rfl

lemma splitCh_sep (c : Char) : ∀ (xs rest : List Char), c ∉ xs →
    splitCh c (xs ++ c :: rest) = xs :: splitCh c rest := by
  intro xs
  induction xs with
  | nil =>
      intro rest _
      show splitCh c (c :: rest) = [] :: splitCh c rest
      rw [splitCh_cons]
      cases h : splitCh c rest with
      | nil => exact absurd h (splitCh_ne_nil _ _)
      | cons hd tl =>
          show (if c = c then [] :: hd :: tl else (c :: hd) :: tl) = [] :: hd :: tl
          rw [if_pos rfl]
  | cons x xs' ih =>
      intro rest hnx
      have hx : ¬x = c := fun h => hnx (h ▸ List.mem_cons_self _ _)
      have hxs' : c ∉ xs' := fun h => hnx (List.mem_cons_of_mem _ h)
      show splitCh c (x :: (xs' ++ c :: rest)) = (x :: xs') :: splitCh c rest
      rw [splitCh_cons, ih rest hxs']
      show (if x = c then [] :: xs' :: splitCh c rest else (x :: xs') :: splitCh c rest) =
        (x :: xs') :: splitCh c rest
      rw [if_neg hx]

lemma splitCh_report (input td : String) (emails : List String)
    (hin : '\n' ∉ input.data) (htd : '\n' ∉ td.data) :
    splitCh '\n' (reportChars input td emails) =
      ("Email addresses extracted from: ".data ++ input.data) ::
      ("Extraction date: ".data ++ td.data) ::
      ("Total unique emails found: ".data ++ natDecimal emails.length) ::
      List.replicate 50 '-' :: [] ::
      splitCh '\n' (enumLinesChars 1 emails) := by
  unfold reportChars
  rw [splitCh_sep _ _ _ ?h1]
  case h1 =>
    intro h
    rcases List.mem_append.mp h with h' | h'
    · exact absurd h' (by decide)
    · exact hin h'
  rw [splitCh_sep _ _ _ ?h2]
  case h2 =>
    intro h
    rcases List.mem_append.mp h with h' | h'
    · exact absurd h' (by decide)
    · exact htd h'
  rw [splitCh_sep _ _ _ ?h3]
  case h3 =>
    intro h
    rcases List.mem_append.mp h with h' | h'
    · exact absurd h' (by decide)
    · exact absurd (natDecimal_digits emails.length _ h') (by decide)
  rw [splitCh_sep _ _ _ ?h4]
  case h4 =>
    intro h
    exact absurd (List.eq_of_mem_replicate h) (by decide)
  have hsep0 := splitCh_sep '\n' [] (enumLinesChars 1 emails) (by simp)
  simp only [List.nil_append] at hsep0
  rw [hsep0]

lemma parse_enum_chunk : ∀ (emails : List String), (∀ e ∈ emails, '\n' ∉ e.data) →
    ∀ i, (splitCh '\n' (enumLinesChars i emails)).filterMap parseEnumLine = emails := by
  intro emails
  induction emails with
  | nil => intro _ i; rfl
  | cons e rest ih =>
      intro hall i
      have hxs : '\n' ∉ (natDecimal i ++ '.' :: ' ' :: e.data) := by
        intro h
        rcases List.mem_append.mp h with h1 | h2
        · exact absurd (natDecimal_digits i _ h1) (by decide)
        · rcases List.mem_cons.mp h2 with h3 | h4
          · exact absurd h3 (by decide)
          · rcases List.mem_cons.mp h4 with h5 | h6
            · exact absurd h5 (by decide)
            · exact hall e (List.mem_cons_self _ _) h6
      have hre : enumLinesChars i (e :: rest) =
          (natDecimal i ++ '.' :: ' ' :: e.data) ++ '\n' :: enumLinesChars (i + 1) rest := by
        simp [enumLinesChars]
      rw [hre, splitCh_sep _ _ _ hxs, List.filterMap_cons, parseEnumLine_enum]
      rw [ih (fun x hx => hall x (List.mem_cons_of_mem _ hx)) (i + 1)]

/-- C7: for every readable input whose deduplicated discovery list is
nonempty (and whose path and report timestamp contain no newline, as real
paths and `strftime` outputs do not), `extract_emails_from_text` writes the
extraction report, and re-parsing the report's enumerated lines reproduces
the deduplicated email list exactly — same items, same order. -/
theorem claim_C7 (fs : FS) (input : String) (output? : Option String) (tn td content : String)
    (hread : lookupFile fs input = some content)
    (hin : '\n' ∉ input.data) (htd : '\n' ∉ td.data)
    (hne : dedupe (findallEmails content) ≠ []) :
    lookupFile (extract_emails_from_text fs input output? tn td).2 (outPathOf input output? tn) =
      some (String.mk (reportChars input td (dedupe (findallEmails content)))) ∧
    parseEnumeratedLines (reportChars input td (dedupe (findallEmails content))) =
      dedupe (findallEmails content) := by
  have hem : ∀ e ∈ dedupe (findallEmails content), '\n' ∉ e.data := fun e he =>
    findall_no_newline content e (dedupe_subset he)
  constructor
  · unfold extract_emails_from_text
    rw [hread]
    have hie : (dedupe (findallEmails content)).isEmpty = false := by
      cases hd : dedupe (findallEmails content) with
      | nil => exact absurd hd hne
      | cons a l => rfl
    simp only [hie, Bool.false_eq_true, if_false]
    unfold lookupFile writeFile
    simp
  · unfold parseEnumeratedLines
    rw [splitCh_report input td _ hin htd]
    have hp1 : parseEnumLine ("Email addresses extracted from: ".data ++ input.data) = none :=
      parseEnumLine_nonDigit (c := 'E') rfl (by decide)
    have hp2 : parseEnumLine ("Extraction date: ".data ++ td.data) = none :=
      parseEnumLine_nonDigit (c := 'E') rfl (by decide)
    have hp3 : parseEnumLine ("Total unique emails found: ".data ++
        natDecimal (dedupe (findallEmails content)).length) = none :=
      parseEnumLine_nonDigit (c := 'T') rfl (by decide)
    have hp4 : parseEnumLine (List.replicate 50 '-') = none :=
      parseEnumLine_nonDigit (c := '-') rfl (by decide)
    simp only [List.filterMap_cons, hp1, hp2, hp3, hp4]
    show (splitCh '\n' (enumLinesChars 1 (dedupe (findallEmails content)))).filterMap
      parseEnumLine = dedupe (findallEmails content)
    exact parse_enum_chunk _ hem 1

theorem claim_C7_witness :
    lookupFile ⟨[("in.txt", "a@b.co")]⟩ "in.txt" = some "a@b.co" ∧
    dedupe (findallEmails "a@b.co") ≠ [] ∧
    parseEnumeratedLines (reportChars "in.txt" "TD" (dedupe (findallEmails "a@b.co"))) =
      dedupe (findallEmails "a@b.co") :=
  ⟨by decide, by decide,
    (claim_C7 ⟨[("in.txt", "a@b.co")]⟩ "in.txt" none "TS" "TD" "a@b.co"
      (by decide) (by decide) (by decide) (by decide)).2⟩

theorem claim_C2_witness :
    (∃ c, "a@b.co".data.head? = some c ∧ isWordChar c = true) ∧
    '|' ∉ "a@b.co".data ∧ '\n' ∉ "a@b.co".data ∧
    (strictMatchB "a@b.co" = true ↔ discFullB "a@b.co" = true) :=
  ⟨⟨'a', rfl, by decide⟩, by decide, by decide,
    claim_C2 "a@b.co" ⟨'a', rfl, by decide⟩ (by decide) (by decide)⟩

end Automation
